import Mathlib

/-!
# Verification of the `bitmanipulation` library

Shallow embedding of `src/include/bitmanipulation.hpp`.

Machine values of an unsigned integer type `T` of bit width `w` are
modelled as natural numbers `< 2 ^ w`; every operation that can wrap
takes the width `w` explicitly and reduces modulo `2 ^ w` exactly where
the C++ code truncates (a `static_cast<T>` or unsigned overflow).
`uintmax_t`, the return type of `mask`, is 64 bits wide on the reference
platform (`WIDE`).
-/

namespace Bitmanipulation

/-- Bit width of `uintmax_t` on the reference platform. -/
def WIDE : Nat := 64

/-- Bitwise complement truncated to `w` bits: models `static_cast<T>(~x)`
for an operand `x < 2 ^ w` (XOR with the all-ones value of width `w`). -/
def complement (w x : Nat) : Nat := (2 ^ w - 1) ^^^ x

/-- `mask(bits, shift) = ~(static_cast<uintmax_t>(~0) << bits) << shift`
at width `WIDE`.  `static_cast<uintmax_t>(~0)` is the all-ones value.
A C++ shift count that reaches the width of the promoted operand is
undefined behavior; the reference x86-64 platform masks a 64-bit shift
count to its low 6 bits, so each shift here shifts by `count % WIDE`
(in particular `mask WIDE 0 = 0`, not all-ones). -/
def mask (bits : Nat) (shift : Nat) : Nat :=
  (complement WIDE (((2 ^ WIDE - 1) <<< (bits % WIDE)) % 2 ^ WIDE) <<< (shift % WIDE)) %
    2 ^ WIDE

/-- `set_bits<T>(value, bits, shift) = value | static_cast<T>(mask(bits, shift))`,
where `T` has width `w`. -/
def set_bits (w value bits shift : Nat) : Nat :=
  value ||| (mask bits shift % 2 ^ w)

/-- `clear_bits<T>(value, bits, shift) = value & static_cast<T>(~m)` where
`m = static_cast<T>(mask(bits, shift))` and `T` has width `w`. -/
def clear_bits (w value bits shift : Nat) : Nat :=
  value &&& complement w (mask bits shift % 2 ^ w)

/-- The loop `for (; value; count++) value = value & (value - 1)` of
`count_bits_set<T>`.  Inside the loop `value ≠ 0`, so the truncation of
`value - 1` to the width of `T` is the identity and the width does not
appear. -/
def count_bits_set (value : Nat) : Nat :=
  if h : value = 0 then 0
  else count_bits_set (value &&& (value - 1)) + 1
termination_by value
decreasing_by
  have hle : value &&& (value - 1) ≤ value - 1 := Nat.and_le_right
  omega

/-- `popcnt<T>(value) = count_bits_set(value)`. -/
def popcnt (value : Nat) : Nat := count_bits_set value

/-- The scan loop of `leading_zeroes_count<T>`:
`for (i = 1; i <= len; i++) { if (mask(1, len - i) & value) break; count++; }`. -/
def lzc_go (len v i : Nat) : Nat :=
  if h : i ≤ len then
    if mask 1 (len - i) &&& v ≠ 0 then 0
    else lzc_go len v (i + 1) + 1
  else 0
termination_by len + 1 - i
decreasing_by omega

/-- `leading_zeroes_count<T>(value)` for `T` of width `w`
(`len = sizeof(value) * CHAR_BIT = w`). -/
def leading_zeroes_count (w v : Nat) : Nat :=
  if v = 0 then w else lzc_go w v 1

/-- The scan loop of `trailing_zeroes_count<T>`:
`for (i = 0; i < len; i++) { if (mask(1, i) & value) break; count++; }`. -/
def tzc_go (len v i : Nat) : Nat :=
  if h : i < len then
    if mask 1 i &&& v ≠ 0 then 0
    else tzc_go len v (i + 1) + 1
  else 0
termination_by len - i
decreasing_by omega

/-- `trailing_zeroes_count<T>(value)` for `T` of width `w`. -/
def trailing_zeroes_count (w v : Nat) : Nat :=
  if v = 0 then w else tzc_go w v 0

/-- `isolate_lowest_clear_bit<T>(value) = value | static_cast<T>(~(value + 1))`
for `T` of width `w`: the increment wraps modulo `2 ^ w` and the complement
is truncated to `w` bits. -/
def isolate_lowest_clear_bit (w v : Nat) : Nat :=
  v ||| complement w ((v + 1) % 2 ^ w)

/-- `isolate_lowest_set_bit<T>(value) = value & static_cast<T>(-value)`:
two's-complement negation modulo `2 ^ w`. -/
def isolate_lowest_set_bit (w v : Nat) : Nat :=
  v &&& ((2 ^ w - v) % 2 ^ w)

/-- `fill_from_lowest_clear_bit<T>(value)`: returns `value` when
`popcnt(value) == sizeof(value) * CHAR_BIT`, else `value & (value + 1)`
with the increment wrapping modulo `2 ^ w`. -/
def fill_from_lowest_clear_bit (w v : Nat) : Nat :=
  if popcnt v = w then v
  else v &&& ((v + 1) % 2 ^ w)

/-- `fill_from_lowest_set_bit<T>(value)`: returns `0` when
`popcnt(value) == 0`, else `value | (value - 1)` with the decrement
wrapping modulo `2 ^ w`. -/
def fill_from_lowest_set_bit (w v : Nat) : Nat :=
  if popcnt v = 0 then 0
  else v ||| ((v + (2 ^ w - 1)) % 2 ^ w)

/-- `clear_lowest_set_bit<T>(value) = value & static_cast<T>(value - 1)`:
the decrement wraps modulo `2 ^ w` (at `value = 0` it yields all-ones). -/
def clear_lowest_set_bit (w v : Nat) : Nat :=
  v &&& ((v + (2 ^ w - 1)) % 2 ^ w)

/-- `set_lowest_clear_bit<T>(value) = value | static_cast<T>(value + 1)`:
the increment wraps modulo `2 ^ w` (at `value = 2 ^ w - 1` it yields `0`). -/
def set_lowest_clear_bit (w v : Nat) : Nat :=
  v ||| ((v + 1) % 2 ^ w)

/-! ## Specification-side definitions

These are written from the wording of the specification (not from the
code); the claim theorems compare the code-side definitions above with
them. -/

/-- Modelled from the spec: "the number of 1-bits in `value`" — the sum
of the binary digits of the value. -/
def popCountSpec (v : Nat) : Nat :=
  if h : v = 0 then 0
  else v % 2 + popCountSpec (v / 2)
termination_by v
decreasing_by omega

/-- Modelled from the spec: `((1 << bits) − 1) << shift` "evaluated at
the full width of the return type", i.e. with wrapping arithmetic modulo
`2 ^ WIDE` (the subtraction of 1 is the modular addition of `2 ^ WIDE - 1`). -/
def maskSpec (bits shift : Nat) : Nat :=
  ((((1 <<< bits) % 2 ^ WIDE) + (2 ^ WIDE - 1)) % 2 ^ WIDE) <<< shift % 2 ^ WIDE

/-- Modelled from the spec: the number of consecutive 0-bits scanned from
the most significant end (bit `w - 1` downwards) before the first set bit. -/
def leadingZeroesSpec (w v : Nat) : Nat :=
  ((List.range w).takeWhile fun j => !v.testBit (w - 1 - j)).length

/-- Modelled from the spec: the number of consecutive 0-bits scanned from
the least significant end (bit `0` upwards) before the first set bit. -/
def trailingZeroesSpec (w v : Nat) : Nat :=
  ((List.range w).takeWhile fun j => !v.testBit j).length

/-- Modelled from the spec: the literal formula `value | ~(value + 1)`
under modular width-`w` arithmetic (`~x` at width `w` is `2 ^ w - 1 - x`). -/
def blciFormula (w v : Nat) : Nat :=
  v ||| (2 ^ w - 1 - (v + 1) % 2 ^ w)

/-- Modelled from the spec: the index of the lowest set bit of a nonzero
value (0 for a zero value, where it is never used). -/
def lowestSetBit (v : Nat) : Nat :=
  if h : v = 0 then 0
  else if v % 2 = 1 then 0
  else lowestSetBit (v / 2) + 1
termination_by v
decreasing_by omega

/-! ## General bit-level lemmas -/

/-- XOR with the all-ones value of width `w` is subtraction from it. -/
theorem xor_all_ones {w x : Nat} (h : x < 2 ^ w) :
    (2 ^ w - 1) ^^^ x = 2 ^ w - 1 - x := by
  induction w generalizing x with
  | zero =>
    have hx : x = 0 := by omega
    subst hx; rfl
  | succ w ih =>
    have h2 : 2 ^ (w + 1) = 2 * 2 ^ w := by rw [Nat.pow_succ, Nat.mul_comm]
    have hp : 0 < 2 ^ w := Nat.pos_pow_of_pos w (by omega)
    have hd : ((2 ^ (w + 1) - 1) ^^^ x) / 2 = (2 ^ w - 1) ^^^ (x / 2) := by
      rw [Nat.xor_div_two]
      congr 1
      omega
    have hx2 : x / 2 < 2 ^ w := by omega
    have hdd : ((2 ^ (w + 1) - 1) ^^^ x) / 2 = 2 ^ w - 1 - x / 2 := by
      rw [hd, ih hx2]
    have hone : (2 ^ (w + 1) - 1) % 2 = 1 := by omega
    have hiff : ((2 ^ (w + 1) - 1) ^^^ x) % 2 = 1 ↔
        ¬((2 ^ (w + 1) - 1) % 2 = 1 ↔ x % 2 = 1) := Nat.xor_mod_two_eq_one
    rw [hone] at hiff
    simp only [iff_true_intro rfl, true_iff] at hiff
    have hm2 : ((2 ^ (w + 1) - 1) ^^^ x) % 2 < 2 := Nat.mod_lt _ (by omega)
    rcases Nat.mod_two_eq_zero_or_one x with hx0 | hx1
    · have : ((2 ^ (w + 1) - 1) ^^^ x) % 2 = 1 := hiff.mpr (by omega)
      omega
    · have : ¬(((2 ^ (w + 1) - 1) ^^^ x) % 2 = 1) := fun hc => (hiff.mp hc) hx1
      omega

theorem testBit_two_mul_zero (k : Nat) : (2 * k).testBit 0 = false := by
  simp [Nat.testBit_zero]

theorem testBit_two_mul_add_one_zero (k : Nat) : (2 * k + 1).testBit 0 = true := by
  simp [Nat.testBit_zero]
  omega

theorem testBit_two_mul_succ (k i : Nat) : (2 * k).testBit (i + 1) = k.testBit i := by
  rw [Nat.testBit_add_one]
  congr 1
  omega

theorem testBit_two_mul_add_one_succ (k i : Nat) :
    (2 * k + 1).testBit (i + 1) = k.testBit i := by
  rw [Nat.testBit_add_one]
  congr 1
  omega

theorem land_even_odd (a b : Nat) : (2 * a) &&& (2 * b + 1) = 2 * (a &&& b) := by
  apply Nat.eq_of_testBit_eq
  intro i
  cases i with
  | zero =>
    simp only [Nat.testBit_and, testBit_two_mul_zero, testBit_two_mul_add_one_zero]
    simp
  | succ i =>
    simp only [Nat.testBit_and, testBit_two_mul_succ, testBit_two_mul_add_one_succ]

theorem land_odd_even (a b : Nat) : (2 * a + 1) &&& (2 * b) = 2 * (a &&& b) := by
  apply Nat.eq_of_testBit_eq
  intro i
  cases i with
  | zero =>
    simp only [Nat.testBit_and, testBit_two_mul_zero, testBit_two_mul_add_one_zero]
    simp
  | succ i =>
    simp only [Nat.testBit_and, testBit_two_mul_succ, testBit_two_mul_add_one_succ]

theorem lor_even_odd (a b : Nat) : (2 * a) ||| (2 * b + 1) = 2 * (a ||| b) + 1 := by
  apply Nat.eq_of_testBit_eq
  intro i
  cases i with
  | zero =>
    simp only [Nat.testBit_or, testBit_two_mul_zero, testBit_two_mul_add_one_zero]
    simp
  | succ i =>
    simp only [Nat.testBit_or, testBit_two_mul_succ, testBit_two_mul_add_one_succ]

theorem lor_odd_even (a b : Nat) : (2 * a + 1) ||| (2 * b) = 2 * (a ||| b) + 1 := by
  apply Nat.eq_of_testBit_eq
  intro i
  cases i with
  | zero =>
    simp only [Nat.testBit_or, testBit_two_mul_zero, testBit_two_mul_add_one_zero]
    simp
  | succ i =>
    simp only [Nat.testBit_or, testBit_two_mul_succ, testBit_two_mul_add_one_succ]

theorem land_self_eq (a : Nat) : a &&& a = a := by
  apply Nat.eq_of_testBit_eq
  intro i
  simp [Nat.testBit_and]

/-! ## Basic facts about the embedded operations -/

theorem count_bits_set_zero : count_bits_set 0 = 0 := by
  rw [count_bits_set]
  simp

theorem count_bits_set_step {v : Nat} (hv : v ≠ 0) :
    count_bits_set v = count_bits_set (v &&& (v - 1)) + 1 := by
  conv_lhs => rw [count_bits_set]
  rw [dif_neg hv]

theorem count_bits_set_eq_zero_iff {v : Nat} : count_bits_set v = 0 ↔ v = 0 := by
  constructor
  · intro h
    by_contra hv
    rw [count_bits_set_step hv] at h
    omega
  · intro h
    subst h
    exact count_bits_set_zero

/-- Modular decrement of a nonzero value of width `w` is plain decrement. -/
theorem mod_sub_one {w v : Nat} (hv : v ≠ 0) (hlt : v < 2 ^ w) :
    (v + (2 ^ w - 1)) % 2 ^ w = v - 1 := by
  have hp : 0 < 2 ^ w := Nat.pos_pow_of_pos w (by omega)
  have hdecomp : v + (2 ^ w - 1) = (v - 1) + 2 ^ w := by omega
  rw [hdecomp, Nat.add_mod_right]
  exact Nat.mod_eq_of_lt (by omega)

/-! ## The value of `mask` -/

theorem sub_one_mul_eq (N X : Nat) (h1 : 1 ≤ X) (h2 : X ≤ N) :
    (N - 1) * X = N * (X - 1) + (N - X) := by
  have e0 : (N - 1) * X + X = N * X := by
    cases N with
    | zero => omega
    | succ n =>
      rw [Nat.succ_sub_one]
      ring
  have e2 : N * (X - 1) + N = N * X := by
    cases X with
    | zero => omega
    | succ x =>
      rw [Nat.succ_sub_one]
      ring
  omega

/-- Shifting the all-ones value of width `w` left by `b ≤ w` and truncating
leaves `2 ^ w - 2 ^ b`. -/
theorem all_ones_shl_mod {w b : Nat} (hb : b ≤ w) :
    ((2 ^ w - 1) <<< b) % 2 ^ w = 2 ^ w - 2 ^ b := by
  rw [Nat.shiftLeft_eq]
  have hX : 1 ≤ 2 ^ b := Nat.pos_pow_of_pos b (by omega)
  have hXN : 2 ^ b ≤ 2 ^ w := Nat.pow_le_pow_right (by omega) hb
  rw [sub_one_mul_eq (2 ^ w) (2 ^ b) hX hXN, Nat.mul_add_mod]
  exact Nat.mod_eq_of_lt (by omega)

/-- Shifting the all-ones value of width `w` left by `b > w` and truncating
leaves `0`. -/
theorem all_ones_shl_mod_gt {w b : Nat} (hb : w < b) :
    ((2 ^ w - 1) <<< b) % 2 ^ w = 0 := by
  rw [Nat.shiftLeft_eq]
  have hpow : 2 ^ b = 2 ^ w * 2 ^ (b - w) := by
    rw [← Nat.pow_add]
    congr 1
    omega
  have : (2 ^ w - 1) * 2 ^ b = 2 ^ w * ((2 ^ w - 1) * 2 ^ (b - w)) := by
    rw [hpow]
    ring
  rw [this, Nat.mul_mod_right]

/-- The unshifted part of `mask`, for `bits ≤ WIDE`: the `bits` lowest bits. -/
theorem mask_inner {b : Nat} (hb : b ≤ WIDE) :
    complement WIDE (((2 ^ WIDE - 1) <<< b) % 2 ^ WIDE) = 2 ^ b - 1 := by
  have hX : 1 ≤ 2 ^ b := Nat.pos_pow_of_pos b (by omega)
  have hXN : 2 ^ b ≤ 2 ^ WIDE := Nat.pow_le_pow_right (by omega) hb
  rw [all_ones_shl_mod hb]
  unfold complement
  rw [xor_all_ones (by omega)]
  omega

/-- The unshifted part of `mask`, for `bits > WIDE`: the all-ones value. -/
theorem mask_inner_gt {b : Nat} (hb : WIDE < b) :
    complement WIDE (((2 ^ WIDE - 1) <<< b) % 2 ^ WIDE) = 2 ^ WIDE - 1 := by
  rw [all_ones_shl_mod_gt hb]
  unfold complement
  exact Nat.xor_zero _

/-- For `bits < WIDE` and `bits + shift ≤ WIDE`, `mask` is the
untruncated field of `bits` ones starting at position `shift`. -/
theorem mask_eq {b s : Nat} (hb : b < WIDE) (h : b + s ≤ WIDE) :
    mask b s = (2 ^ b - 1) * 2 ^ s := by
  unfold mask
  rw [Nat.mod_eq_of_lt hb, mask_inner (by omega)]
  rcases lt_or_ge s WIDE with hs | hs
  · rw [Nat.mod_eq_of_lt hs, Nat.shiftLeft_eq]
    apply Nat.mod_eq_of_lt
    have h1 : (2 ^ b - 1) * 2 ^ s < 2 ^ b * 2 ^ s := by
      apply Nat.mul_lt_mul_of_lt_of_le
      · exact Nat.sub_lt (Nat.pos_pow_of_pos b (by omega)) (by omega)
      · exact Nat.le_refl _
      · exact Nat.pos_pow_of_pos s (by omega)
    have h2 : 2 ^ b * 2 ^ s ≤ 2 ^ WIDE := by
      rw [← Nat.pow_add]
      exact Nat.pow_le_pow_right (by omega) h
    omega
  · have hb0 : b = 0 := by omega
    subst hb0
    simp

theorem mask_one {s : Nat} (hs : s < WIDE) : mask 1 s = 2 ^ s := by
  rw [mask_eq (by decide) (by omega)]
  norm_num

/-! ## Population count -/

theorem popCountSpec_zero : popCountSpec 0 = 0 := by
  rw [popCountSpec]
  simp

theorem popCountSpec_two_mul (k : Nat) : popCountSpec (2 * k) = popCountSpec k := by
  by_cases hk : k = 0
  · subst hk
    rfl
  · conv_lhs => rw [popCountSpec]
    rw [dif_neg (by omega)]
    have h1 : 2 * k % 2 = 0 := by omega
    have h2 : 2 * k / 2 = k := by omega
    rw [h1, h2]
    omega

theorem popCountSpec_two_mul_add_one (k : Nat) :
    popCountSpec (2 * k + 1) = popCountSpec k + 1 := by
  conv_lhs => rw [popCountSpec]
  rw [dif_neg (by omega)]
  have h1 : (2 * k + 1) % 2 = 1 := by omega
  have h2 : (2 * k + 1) / 2 = k := by omega
  rw [h1, h2]
  omega

/-- Clearing the lowest set bit of a nonzero value removes exactly one
1-bit. -/
theorem popCountSpec_land_pred {v : Nat} (hv : v ≠ 0) :
    popCountSpec (v &&& (v - 1)) + 1 = popCountSpec v := by
  induction v using Nat.strongRecOn with
  | ind v ih =>
    rcases Nat.mod_two_eq_zero_or_one v with h0 | h1
    · obtain ⟨k, rfl⟩ : ∃ k, v = 2 * k := ⟨v / 2, by omega⟩
      have hv1 : 2 * k - 1 = 2 * (k - 1) + 1 := by omega
      rw [hv1, land_even_odd, popCountSpec_two_mul, popCountSpec_two_mul]
      exact ih k (by omega) (by omega)
    · obtain ⟨k, rfl⟩ : ∃ k, v = 2 * k + 1 := ⟨v / 2, by omega⟩
      have hv1 : 2 * k + 1 - 1 = 2 * k := by omega
      rw [hv1, land_odd_even, land_self_eq, popCountSpec_two_mul,
        popCountSpec_two_mul_add_one]

/-- The clear-lowest-set-bit loop computes the number of 1-bits. -/
theorem count_bits_set_eq_popCountSpec (v : Nat) :
    count_bits_set v = popCountSpec v := by
  induction v using Nat.strongRecOn with
  | ind v ih =>
    by_cases hv : v = 0
    · subst hv
      rw [count_bits_set_zero, popCountSpec_zero]
    · rw [count_bits_set_step hv]
      have hlt : v &&& (v - 1) < v := by
        have := Nat.and_le_right (n := v) (m := v - 1)
        omega
      rw [ih _ hlt]
      have := popCountSpec_land_pred hv
      omega

theorem popCountSpec_two_pow_sub_one (b : Nat) : popCountSpec (2 ^ b - 1) = b := by
  induction b with
  | zero => exact popCountSpec_zero
  | succ b ih =>
    have h2 : 2 ^ (b + 1) - 1 = 2 * (2 ^ b - 1) + 1 := by
      have : 2 ^ (b + 1) = 2 * 2 ^ b := by rw [Nat.pow_succ, Nat.mul_comm]
      have hp : 0 < 2 ^ b := Nat.pos_pow_of_pos b (by omega)
      omega
    rw [h2, popCountSpec_two_mul_add_one, ih]

theorem popCountSpec_mul_two_pow (x s : Nat) :
    popCountSpec (x * 2 ^ s) = popCountSpec x := by
  induction s with
  | zero => simp
  | succ s ih =>
    have h : x * 2 ^ (s + 1) = 2 * (x * 2 ^ s) := by
      rw [Nat.pow_succ]
      ring
    rw [h, popCountSpec_two_mul, ih]

theorem two_pow_mod_two_pow_eq_zero {w b : Nat} (h : w ≤ b) : 2 ^ b % 2 ^ w = 0 := by
  have hsplit : 2 ^ b = 2 ^ w * 2 ^ (b - w) := by
    rw [← Nat.pow_add]
    congr 1
    omega
  rw [hsplit, Nat.mul_mod_right]

/-- The unshifted part of `mask` agrees with the unshifted part of the
specification formula `(1 << bits) - 1` in modular width-`WIDE` arithmetic. -/
theorem mask_inner_eq_spec (b : Nat) :
    complement WIDE (((2 ^ WIDE - 1) <<< b) % 2 ^ WIDE) =
      ((1 <<< b) % 2 ^ WIDE + (2 ^ WIDE - 1)) % 2 ^ WIDE := by
  have hp : 0 < 2 ^ WIDE := Nat.pos_pow_of_pos WIDE (by omega)
  rcases le_or_lt b WIDE with hb | hb
  · rw [mask_inner hb, Nat.shiftLeft_eq, Nat.one_mul]
    rcases Nat.lt_or_ge b WIDE with hlt | hge
    · have h1 : 2 ^ b % 2 ^ WIDE = 2 ^ b :=
        Nat.mod_eq_of_lt (Nat.pow_lt_pow_right (by omega) hlt)
      have h2 : 1 ≤ 2 ^ b := Nat.pos_pow_of_pos b (by omega)
      have h3 : 2 ^ b + (2 ^ WIDE - 1) = (2 ^ b - 1) + 2 ^ WIDE := by omega
      rw [h1, h3, Nat.add_mod_right]
      exact (Nat.mod_eq_of_lt (by omega)).symm
    · have hbw : b = WIDE := by omega
      subst hbw
      rw [Nat.mod_self, Nat.zero_add]
      exact (Nat.mod_eq_of_lt (by omega)).symm
  · rw [mask_inner_gt hb, Nat.shiftLeft_eq, Nat.one_mul,
      two_pow_mod_two_pow_eq_zero (by omega), Nat.zero_add]
    exact (Nat.mod_eq_of_lt (by omega)).symm

/-! ## Filling from the lowest set bit -/

theorem lor_odd_odd (a b : Nat) : (2 * a + 1) ||| (2 * b + 1) = 2 * (a ||| b) + 1 := by
  apply Nat.eq_of_testBit_eq
  intro i
  cases i with
  | zero =>
    simp only [Nat.testBit_or, testBit_two_mul_add_one_zero]
    simp
  | succ i =>
    simp only [Nat.testBit_or, testBit_two_mul_succ, testBit_two_mul_add_one_succ]

theorem lor_self_eq (a : Nat) : a ||| a = a := by
  apply Nat.eq_of_testBit_eq
  intro i
  simp [Nat.testBit_or]

theorem lor_odd_one (k : Nat) : (2 * k + 1) ||| 1 = 2 * k + 1 := by
  have h := lor_odd_odd k 0
  simpa using h

theorem lowestSetBit_odd (k : Nat) : lowestSetBit (2 * k + 1) = 0 := by
  rw [lowestSetBit]
  simp
  omega

theorem lowestSetBit_even {k : Nat} (hk : k ≠ 0) :
    lowestSetBit (2 * k) = lowestSetBit k + 1 := by
  rw [lowestSetBit]
  rw [dif_neg (by omega), if_neg (by omega)]
  have h2 : 2 * k / 2 = k := by omega
  rw [h2]

/-- Decrement-and-OR sets exactly the bits at and below the lowest set
bit: for nonzero `v`, `v ||| (v - 1)` equals `v` with the low field up to
`lowestSetBit v` forced to ones. -/
theorem or_pred_fill {v : Nat} (hv : v ≠ 0) :
    v ||| (v - 1) = v ||| (2 ^ (lowestSetBit v + 1) - 1) := by
  induction v using Nat.strongRecOn with
  | ind v ih =>
    rcases Nat.mod_two_eq_zero_or_one v with h0 | h1
    · obtain ⟨k, rfl⟩ : ∃ k, v = 2 * k := ⟨v / 2, by omega⟩
      have hk0 : k ≠ 0 := by omega
      have hv1 : 2 * k - 1 = 2 * (k - 1) + 1 := by omega
      rw [hv1, lor_even_odd, lowestSetBit_even hk0]
      have hpow : 2 ^ (lowestSetBit k + 1 + 1) - 1 =
          2 * (2 ^ (lowestSetBit k + 1) - 1) + 1 := by
        have h2 : 2 ^ (lowestSetBit k + 1 + 1) = 2 * 2 ^ (lowestSetBit k + 1) := by
          rw [Nat.pow_succ, Nat.mul_comm]
        have hp : 0 < 2 ^ (lowestSetBit k + 1) := Nat.pos_pow_of_pos _ (by omega)
        omega
      rw [hpow, lor_even_odd, ih k (by omega) hk0]
    · obtain ⟨k, rfl⟩ : ∃ k, v = 2 * k + 1 := ⟨v / 2, by omega⟩
      have hv1 : 2 * k + 1 - 1 = 2 * k := by omega
      rw [hv1, lowestSetBit_odd, lor_odd_even, lor_self_eq]
      have h1 : 2 ^ (0 + 1) - 1 = 1 := by norm_num
      rw [h1, lor_odd_one]

/-- Bit-level reading of `or_pred_fill`: bit `i` of `v ||| (v - 1)` is set
iff it was set in `v` or lies at or below the lowest set bit. -/
theorem or_pred_testBit {v : Nat} (hv : v ≠ 0) (i : Nat) :
    (v ||| (v - 1)).testBit i = (v.testBit i || decide (i ≤ lowestSetBit v)) := by
  rw [or_pred_fill hv]
  simp only [Nat.testBit_or, Nat.testBit_two_pow_sub_one]
  congr 1
  simp [Nat.lt_succ_iff]

/-! ## Leading and trailing zero counts -/

/-- The single-bit probe of the scan loops: `mask(1, i) & value` is
nonzero exactly when bit `i` of `value` is set. -/
theorem mask_one_and {i : Nat} (v : Nat) (hi : i < WIDE) :
    mask 1 i &&& v ≠ 0 ↔ v.testBit i = true := by
  rw [mask_one hi, Nat.two_pow_and]
  cases hb : v.testBit i <;> simp

/-- The trailing-zeroes loop counts the scanned positions `[i, w)` up to
the first set bit. -/
theorem tzc_go_spec (w v : Nat) (hw : w ≤ WIDE) :
    ∀ n i, i + n = w →
      tzc_go w v i = ((List.range' i n).takeWhile fun j => !v.testBit j).length := by
  intro n
  induction n with
  | zero =>
    intro i hi
    rw [tzc_go, dif_neg (by omega)]
    simp
  | succ n ih =>
    intro i hi
    rw [tzc_go, dif_pos (by omega), List.range'_succ]
    by_cases hb : v.testBit i
    · rw [if_pos ((mask_one_and v (by omega)).mpr hb)]
      rw [List.takeWhile_cons_of_neg (by simp [hb])]
      simp
    · rw [if_neg (fun hc => hb ((mask_one_and v (by omega)).mp hc))]
      rw [List.takeWhile_cons_of_pos (by simp [hb])]
      rw [List.length_cons, ih (i + 1) (by omega)]

/-- The leading-zeroes loop at counter `i` counts the scanned offsets
`[i - 1, w)` (offset `j` probes bit `w - 1 - j`) up to the first set bit. -/
theorem lzc_go_spec (w v : Nat) (hw : w ≤ WIDE) :
    ∀ n i, 1 ≤ i → i + n = w + 1 →
      lzc_go w v i =
        ((List.range' (i - 1) n).takeWhile fun j => !v.testBit (w - 1 - j)).length := by
  intro n
  induction n with
  | zero =>
    intro i h1 hi
    rw [lzc_go, dif_neg (by omega)]
    simp
  | succ n ih =>
    intro i h1 hi
    rw [lzc_go, dif_pos (by omega), List.range'_succ]
    have hidx : w - 1 - (i - 1) = w - i := by omega
    by_cases hb : v.testBit (w - i)
    · rw [if_pos ((mask_one_and v (by omega)).mpr hb)]
      rw [List.takeWhile_cons_of_neg (by simp [hidx, hb])]
      simp
    · rw [if_neg (fun hc => hb ((mask_one_and v (by omega)).mp hc))]
      rw [List.takeWhile_cons_of_pos (by simp [hidx, hb])]
      have hstep : i - 1 + 1 = (i + 1) - 1 := by omega
      rw [List.length_cons, hstep, ih (i + 1) (by omega) (by omega)]

/-! ## Claim theorems -/

/-- C1 (amended): for every `bits` and `shift` with `bits + shift ≤ W`
and `bits < W` (`W = WIDE`, the working bit width of `mask`),
`count_bits_set (mask bits shift) = bits`; the extreme `bits = 0` is an
instance.  At `bits = W` the C++ shift is undefined behavior and the
reference platform's count-masking gives `mask W 0 = 0`, so the original
extreme fails (see the counterexample). -/
theorem count_bits_set_mask (bits shift : Nat) (h : bits + shift ≤ WIDE)
    (hb : bits < WIDE) :
    count_bits_set (mask bits shift) = bits := by
  rw [mask_eq hb h, count_bits_set_eq_popCountSpec, popCountSpec_mul_two_pow,
    popCountSpec_two_pow_sub_one]

/-- Witness for C1 at the extreme `bits = 0` and at `bits = 63`, `shift = 1`. -/
theorem count_bits_set_mask_witness :
    (0 + 0 ≤ WIDE ∧ 0 < WIDE ∧ count_bits_set (mask 0 0) = 0) ∧
    (63 + 1 ≤ WIDE ∧ 63 < WIDE ∧ count_bits_set (mask 63 1) = 63) :=
  ⟨⟨by decide, by decide, count_bits_set_mask 0 0 (by decide) (by decide)⟩,
   ⟨by decide, by decide, count_bits_set_mask 63 1 (by decide) (by decide)⟩⟩

/-- Counterexample to C1 as stated: at `bits = WIDE`, `shift = 0` (which
satisfies `bits + shift ≤ W`) the program computes `mask WIDE 0 = 0`, so
the count is `0`, not `WIDE`. -/
theorem count_bits_set_mask_counterexample :
    WIDE + 0 ≤ WIDE ∧ count_bits_set (mask WIDE 0) = 0 ∧
    count_bits_set (mask WIDE 0) ≠ WIDE := by
  have hm : mask WIDE 0 = 0 := by decide
  refine ⟨by decide, ?_, ?_⟩
  · rw [hm]
    exact count_bits_set_zero
  · rw [hm, count_bits_set_zero]
    decide

/-- C2 (amended): for every `bits < WIDE` and `shift < WIDE`,
`mask bits shift` equals `((1 << bits) - 1) << shift` evaluated in
modular arithmetic at the full width of the return type (`WIDE`), and
`bits = 0` yields the all-zero value for every `shift`.  At
`bits = WIDE` (or any shift count `≥ WIDE`) the C++ shift is undefined
behavior; the reference platform's count-masking yields `mask WIDE 0 = 0`
rather than the all-ones value (see the counterexample). -/
theorem mask_matches_spec_formula :
    (∀ bits shift, bits < WIDE → shift < WIDE →
      mask bits shift = maskSpec bits shift) ∧
    (∀ shift, mask 0 shift = 0) ∧
    mask WIDE 0 = 0 := by
  refine ⟨?_, ?_, ?_⟩
  · intro bits shift hb hs
    unfold mask maskSpec
    rw [Nat.mod_eq_of_lt hb, Nat.mod_eq_of_lt hs, mask_inner_eq_spec]
  · intro shift
    unfold mask
    rw [Nat.zero_mod, mask_inner (Nat.zero_le WIDE)]
    simp
  · decide

/-- Witness for C2 at `bits = 2`, `shift = 2`. -/
theorem mask_matches_spec_formula_witness :
    2 < WIDE ∧ 2 < WIDE ∧ mask 2 2 = maskSpec 2 2 :=
  ⟨by decide, by decide, mask_matches_spec_formula.1 2 2 (by decide) (by decide)⟩

/-- Counterexample to C2 as stated: the program computes `mask WIDE 0 = 0`,
which is neither the all-ones value nor the value of the spec formula
there; and at `shift = WIDE` the program and the spec formula differ too. -/
theorem mask_matches_spec_formula_counterexample :
    mask WIDE 0 = 0 ∧ mask WIDE 0 ≠ 2 ^ WIDE - 1 ∧
    mask WIDE 0 ≠ maskSpec WIDE 0 ∧ mask 1 WIDE ≠ maskSpec 1 WIDE := by
  decide

/-- C3: `count_bits_set` returns the number of 1-bits of its argument for
every value; in particular `count_bits_set 0 = 0` and the all-ones value
of any width `w` has count `w`. -/
theorem count_bits_set_correct :
    (∀ v, count_bits_set v = popCountSpec v) ∧
    count_bits_set 0 = 0 ∧
    ∀ w, count_bits_set (2 ^ w - 1) = w :=
  ⟨count_bits_set_eq_popCountSpec, count_bits_set_zero, fun w => by
    rw [count_bits_set_eq_popCountSpec, popCountSpec_two_pow_sub_one]⟩

/-- C5: clearing after setting the same `bits`/`shift` region erases
exactly what `set_bits` wrote, independently of the original contents:
`clear_bits (set_bits v b s) b s = clear_bits v b s`. -/
theorem clear_bits_set_bits (w v bits shift : Nat) (hbs : bits + shift ≤ w)
    (hv : v < 2 ^ w) :
    clear_bits w (set_bits w v bits shift) bits shift = clear_bits w v bits shift := by
  unfold clear_bits set_bits complement
  have hp : 0 < 2 ^ w := Nat.pos_pow_of_pos w (by omega)
  have hmlt : mask bits shift % 2 ^ w < 2 ^ w := Nat.mod_lt _ hp
  apply Nat.eq_of_testBit_eq
  intro i
  by_cases hi : i < w
  · simp only [Nat.testBit_and, Nat.testBit_or, Nat.testBit_xor,
      Nat.testBit_two_pow_sub_one]
    have hd : decide (i < w) = true := by simp [hi]
    rw [hd]
    cases (mask bits shift % 2 ^ w).testBit i <;> cases v.testBit i <;> simp
  · have hmb : (mask bits shift % 2 ^ w).testBit i = false :=
      Nat.testBit_lt_two_pow
        (Nat.lt_of_lt_of_le hmlt (Nat.pow_le_pow_right (by omega) (by omega)))
    simp only [Nat.testBit_and, Nat.testBit_or, Nat.testBit_xor,
      Nat.testBit_two_pow_sub_one, hmb]
    have hd : decide (i < w) = false := by simp [hi]
    rw [hd]
    simp

/-- Witness for C5 at width 8, `v = 0b1010`, `bits = 2`, `shift = 1`. -/
theorem clear_bits_set_bits_witness :
    (2 + 1 ≤ 8 ∧ 10 < 2 ^ 8) ∧
    clear_bits 8 (set_bits 8 10 2 1) 2 1 = clear_bits 8 10 2 1 :=
  ⟨⟨by decide, by decide⟩, clear_bits_set_bits 8 10 2 1 (by decide) (by decide)⟩

/-- C6: `isolate_lowest_clear_bit` equals the literal formula
`value | ~(value + 1)` in modular width-`w` arithmetic, and on the
spec's example `0b11100011` at width 8 it yields `0b11111011`. -/
theorem isolate_lowest_clear_bit_correct :
    (∀ w v, isolate_lowest_clear_bit w v = blciFormula w v) ∧
    isolate_lowest_clear_bit 8 0xE3 = 0xFB := by
  constructor
  · intro w v
    unfold isolate_lowest_clear_bit blciFormula complement
    congr 1
    exact xor_all_ones (Nat.mod_lt _ (Nat.pos_pow_of_pos w (by omega)))
  · decide

/-- C8: clearing the lowest set bit of a nonzero value decrements the
population count by exactly one. -/
theorem count_clear_lowest_set_bit (w v : Nat) (hv : v < 2 ^ w) (h0 : v ≠ 0) :
    count_bits_set (clear_lowest_set_bit w v) = count_bits_set v - 1 := by
  unfold clear_lowest_set_bit
  rw [mod_sub_one h0 hv]
  have := count_bits_set_step h0
  omega

/-- Witness for C8 at width 8, `v = 6`. -/
theorem count_clear_lowest_set_bit_witness :
    6 < 2 ^ 8 ∧ 6 ≠ 0 ∧
    count_bits_set (clear_lowest_set_bit 8 6) = count_bits_set 6 - 1 :=
  ⟨by decide, by decide, count_clear_lowest_set_bit 8 6 (by decide) (by decide)⟩

/-- C9: for every value of the type, `clear_lowest_set_bit` never
increases and `set_lowest_clear_bit` never decreases the value; in
particular the wraparounds at the extremes are no-ops: the former fixes
`0` and the latter fixes the all-ones value. -/
theorem lowest_bit_ops_bounded (w v : Nat) (hv : v < 2 ^ w) :
    clear_lowest_set_bit w v ≤ v ∧ v ≤ set_lowest_clear_bit w v ∧
    clear_lowest_set_bit w 0 = 0 ∧
    set_lowest_clear_bit w (2 ^ w - 1) = 2 ^ w - 1 := by
  refine ⟨Nat.and_le_left, ?_, ?_, ?_⟩
  · unfold set_lowest_clear_bit
    apply Nat.le_of_testBit
    intro i hi
    simp [Nat.testBit_or, hi]
  · unfold clear_lowest_set_bit
    exact Nat.zero_and _
  · unfold set_lowest_clear_bit
    have hp : 0 < 2 ^ w := Nat.pos_pow_of_pos w (by omega)
    have h1 : 2 ^ w - 1 + 1 = 2 ^ w := by omega
    rw [h1, Nat.mod_self, Nat.or_zero]

/-- Witness for C9 at width 8, `v = 5`. -/
theorem lowest_bit_ops_bounded_witness :
    5 < 2 ^ 8 ∧
    (clear_lowest_set_bit 8 5 ≤ 5 ∧ 5 ≤ set_lowest_clear_bit 8 5 ∧
     clear_lowest_set_bit 8 0 = 0 ∧
     set_lowest_clear_bit 8 (2 ^ 8 - 1) = 2 ^ 8 - 1) :=
  ⟨by decide, lowest_bit_ops_bounded 8 5 (by decide)⟩

/-- C10: the loop of `count_bits_set` terminates on every input: the loop
value strictly decreases under `v ↦ v &&& (v - 1)` while nonzero, and the
(total, well-founded) embedded function satisfies the loop's recurrence. -/
theorem count_bits_set_terminates (v : Nat) (hv : v ≠ 0) :
    v &&& (v - 1) < v ∧ count_bits_set v = count_bits_set (v &&& (v - 1)) + 1 := by
  constructor
  · have := Nat.and_le_right (n := v) (m := v - 1)
    omega
  · exact count_bits_set_step hv

/-- Witness for C10 at `v = 6`. -/
theorem count_bits_set_terminates_witness :
    (6 : Nat) ≠ 0 ∧
    (6 &&& (6 - 1) < 6 ∧ count_bits_set 6 = count_bits_set (6 &&& (6 - 1)) + 1) :=
  ⟨by decide, count_bits_set_terminates 6 (by decide)⟩

/-- C7: `fill_from_lowest_set_bit 0 = 0`, and for every nonzero value it
is computed as `value | (value - 1)` (the wrap of the decrement never
surfaces) and sets exactly every bit below and including the lowest set
bit, leaving the others unchanged. -/
theorem fill_from_lowest_set_bit_correct (w v i : Nat) (hv : v < 2 ^ w) :
    fill_from_lowest_set_bit w 0 = 0 ∧
    (v ≠ 0 →
      fill_from_lowest_set_bit w v = v ||| (v - 1) ∧
      (fill_from_lowest_set_bit w v).testBit i =
        (v.testBit i || decide (i ≤ lowestSetBit v))) := by
  constructor
  · unfold fill_from_lowest_set_bit popcnt
    rw [count_bits_set_zero]
    simp
  · intro h0
    have heq : fill_from_lowest_set_bit w v = v ||| (v - 1) := by
      unfold fill_from_lowest_set_bit popcnt
      rw [if_neg (fun hc => h0 (count_bits_set_eq_zero_iff.mp hc)),
        mod_sub_one h0 hv]
    refine ⟨heq, ?_⟩
    rw [heq]
    exact or_pred_testBit h0 i

/-- Witness for C7 at width 8, `v = 0b01110100`, bit 1. -/
theorem fill_from_lowest_set_bit_correct_witness :
    116 < 2 ^ 8 ∧
    (fill_from_lowest_set_bit 8 0 = 0 ∧
     ((116 : Nat) ≠ 0 →
       fill_from_lowest_set_bit 8 116 = 116 ||| (116 - 1) ∧
       (fill_from_lowest_set_bit 8 116).testBit 1 =
         ((116 : Nat).testBit 1 || decide (1 ≤ lowestSetBit 116)))) :=
  ⟨by decide, fill_from_lowest_set_bit_correct 8 116 1 (by decide)⟩

/-- C4: at every width `w` (up to the platform's `WIDE`),
`leading_zeroes_count w 0 = w` and `trailing_zeroes_count w 0 = w`; for a
nonzero value each returns the number of consecutive 0-bits scanned from
its end of the word before the first set bit. -/
theorem zero_count_correct (w v : Nat) (hw : w ≤ WIDE) (hv : v < 2 ^ w) :
    leading_zeroes_count w 0 = w ∧ trailing_zeroes_count w 0 = w ∧
    (v ≠ 0 →
      leading_zeroes_count w v = leadingZeroesSpec w v ∧
      trailing_zeroes_count w v = trailingZeroesSpec w v) := by
  refine ⟨by simp [leading_zeroes_count], by simp [trailing_zeroes_count], ?_⟩
  intro h0
  constructor
  · unfold leading_zeroes_count leadingZeroesSpec
    rw [if_neg h0, List.range_eq_range']
    have h := lzc_go_spec w v hw w 1 (by omega) (by omega)
    simpa using h
  · unfold trailing_zeroes_count trailingZeroesSpec
    rw [if_neg h0, List.range_eq_range']
    exact tzc_go_spec w v hw w 0 (by omega)

/-- Witness for C4 at width 8, `v = 0b00001100`. -/
theorem zero_count_correct_witness :
    8 ≤ WIDE ∧ 12 < 2 ^ 8 ∧
    (leading_zeroes_count 8 0 = 8 ∧ trailing_zeroes_count 8 0 = 8 ∧
     ((12 : Nat) ≠ 0 →
       leading_zeroes_count 8 12 = leadingZeroesSpec 8 12 ∧
       trailing_zeroes_count 8 12 = trailingZeroesSpec 8 12)) :=
  ⟨by decide, by decide, zero_count_correct 8 12 (by decide) (by decide)⟩

end Bitmanipulation
